import Mathlib

/-
Verification of the react-state library (src/index.tsx): a shallow Lean
embedding of its Container pub/sub, Processor memoization, Provider
onChange, useModel consumer hook, model-context binding, Providers
composer and withModel wrapper, together with theorems settling the
specified behaviours.
-/

namespace ReactState

/-- JavaScript values as they occur in this library: `undefined`, `null`,
booleans, (non-NaN) numbers, strings, and objects identified by reference.
Floating-point NaN is outside the embedding's value domain. -/
inductive JSVal where
  | undef : JSVal
  | null : JSVal
  | bool : Bool → JSVal
  | num : Int → JSVal
  | str : String → JSVal
  | obj : Nat → JSVal
deriving DecidableEq, Repr

/-- JavaScript strict equality `===` on the embedded value domain:
values of different kinds are unequal, primitives compare by value,
objects compare by reference identity. (NaN is excluded from the domain.) -/
def jsEq : JSVal → JSVal → Bool
  | .undef, .undef => true
  | .null, .null => true
  | .bool a, .bool b => a == b
  | .num a, .num b => a == b
  | .str a, .str b => a == b
  | .obj a, .obj b => a == b
  | _, _ => false

/-- JavaScript truthiness of an embedded value: `undefined`, `null`,
`false`, `0` and the empty string are falsy; objects are always truthy. -/
def truthy : JSVal → Bool
  | .undef => false
  | .null => false
  | .bool b => b
  | .num n => n != 0
  | .str s => s != ""
  | .obj _ => true

theorem jsEq_iff_eq (a b : JSVal) : jsEq a b = true ↔ a = b := by
  cases a <;> cases b <;> simp [jsEq]

theorem jsEq_refl (a : JSVal) : jsEq a a = true := (jsEq_iff_eq a a).mpr rfl

/-- The `isEquals` shallow comparator from src/index.tsx (lines 154-159):
false when the lengths differ, otherwise the conjunction of position-wise
`===` comparisons. -/
def isEquals (v1 v2 : List JSVal) : Bool :=
  if v1.length ≠ v2.length then false
  else (v1.zip v2).all fun p => jsEq p.1 p.2

theorem isEquals_cons (a b : JSVal) (t t2 : List JSVal) :
    isEquals (a :: t) (b :: t2) = (jsEq a b && isEquals t t2) := by
  simp only [isEquals, List.zip_cons_cons, List.all_cons, List.length_cons]
  by_cases hl : t.length = t2.length
  · simp [hl]
  · have h1 : t.length + 1 ≠ t2.length + 1 := by omega
    simp [hl, h1]

theorem isEquals_iff_eq (v1 v2 : List JSVal) : isEquals v1 v2 = true ↔ v1 = v2 := by
  induction v1 generalizing v2 with
  | nil => cases v2 <;> simp [isEquals]
  | cons a t ih =>
    cases v2 with
    | nil => simp [isEquals]
    | cons b t2 =>
      rw [isEquals_cons, Bool.and_eq_true, jsEq_iff_eq, ih]
      constructor
      · rintro ⟨rfl, rfl⟩; exact rfl
      · intro h; injection h with h1 h2; exact ⟨h1, h2⟩

/-- The memoization policy stated in the spec's own words: same length and
pairwise `===` at every position. Used only to compare against the
source-derived `isEquals`. -/
def shallowEqSpec (v1 v2 : List JSVal) : Prop :=
  v1.length = v2.length ∧ ∀ i, i < v1.length → jsEq (v1.getD i .undef) (v2.getD i .undef) = true

theorem isEquals_iff_shallowEqSpec (v1 v2 : List JSVal) :
    isEquals v1 v2 = true ↔ shallowEqSpec v1 v2 := by
  rw [isEquals_iff_eq]
  constructor
  · rintro rfl
    exact ⟨rfl, fun i _ => jsEq_refl _⟩
  · rintro ⟨hl, hp⟩
    apply List.ext_getElem hl
    intro i h1 h2
    have := (jsEq_iff_eq _ _).mp (hp i h1)
    rwa [List.getD_eq_getElem?_getD, List.getD_eq_getElem?_getD,
      List.getElem?_eq_getElem h1, List.getElem?_eq_getElem h2] at this

/-- A JavaScript array value: reference identity plus element list. -/
structure JSArray where
  refId : Nat
  elems : List JSVal
deriving DecidableEq, Repr

/-- Strict equality `prevProps.args === nextProps.args` on the optional
`args` prop: both absent (`undefined === undefined`) is true, both arrays
compare by reference, otherwise false. -/
def argsRefEq : Option JSArray → Option JSArray → Bool
  | none, none => true
  | some a, some b => a.refId == b.refId
  | _, _ => false

/-- The `props.args || []` fallback: the element list of the args array,
or the empty list when args is absent. -/
def orEmpty : Option JSArray → List JSVal
  | none => []
  | some a => a.elems

/-- The `arePropsEqual` comparator of `Processor` (src/index.tsx lines
57-65): returns true (render and model invocation skipped) when `memo` is
set and either the args props are `===`-identical or `isEquals` holds of
the two (defaulted) argument vectors. -/
def processorSkip (memo : Bool) (prev next : Option JSArray) : Bool :=
  if !memo then false
  else if argsRefEq prev next then true
  else isEquals (orEmpty prev) (orEmpty next)

/-- The `Container` class (src/index.tsx lines 26-41): a mutable box with
a current state (initially `undefined`) and an insertion-ordered set of
subscribers, modelled as a duplicate-free list of listener identifiers.
The `refId` field records the object's reference identity. -/
structure Container where
  refId : Nat
  state : JSVal
  subscribers : List Nat
deriving DecidableEq, Repr

/-- Result of `new Container()`: state `undefined`, no subscribers. -/
def newContainer (id : Nat) : Container :=
  { refId := id, state := .undef, subscribers := [] }

/-- The invocation sequence of `Container.notify`
(`this.subscribers.forEach((sub) => sub())`): each currently registered
listener, in the set's insertion order, called with no arguments. -/
def Container.notify (c : Container) : List Nat :=
  c.subscribers

/-- The `Container.sub` method: `Set.add` keeps an already-present element
at its original position, otherwise appends at the end. -/
def Container.addSub (c : Container) (s : Nat) : Container :=
  if s ∈ c.subscribers then c
  else { c with subscribers := c.subscribers ++ [s] }

/-- The `Container.unsub` method: `Set.delete` removes the element if
present, preserving the order of the rest. -/
def Container.removeSub (c : Container) (s : Nat) : Container :=
  { c with subscribers := c.subscribers.erase s }

/-- The invocation sequence of `Container.notify` when listeners may
throw: `forEach` stops at the first listener whose call throws, so the
result is the invoked prefix (the first thrower included) paired with the
identifier of the throwing listener, if any. -/
def Container.notifyExc (throws : Nat → Bool) : List Nat → List Nat × Option Nat
  | [] => ([], none)
  | s :: rest =>
      if throws s then ([s], some s)
      else
        let r := Container.notifyExc throws rest
        (s :: r.1, r.2)

/-- Outcome of one call to the Provider's `onChange` handler. -/
structure OnChangeResult where
  isReady : Bool
  container : Container
  modelRef : Option JSVal
  notified : List Nat
deriving DecidableEq, Repr

/-- The Provider's `onChange` handler (src/index.tsx lines 80-89): flips
the ready flag if needed, writes the reported value into the Container,
mirrors it into the `modelRef` cell when one was supplied, then calls
`notify`. `modelRef` is the current content of the external cell, `none`
meaning no cell was supplied. -/
def onChange (isReady : Bool) (c : Container) (modelRef : Option JSVal) (value : JSVal) :
    OnChangeResult :=
  let ready := if !isReady then true else isReady
  let c1 := { c with state := value }
  let ref := match modelRef with
    | some _ => some value
    | none => none
  { isReady := ready, container := c1, modelRef := ref, notified := c1.notify }

/-- The read performed by `useModel` on its initial render
(src/index.tsx lines 125, 147-151): local state is initialised from
`container.state`, and `if (!state)` throws the not-initialized error, so
the hook throws exactly when that value is falsy. -/
def useModelRead (name : String) (containerState : JSVal) : Except String JSVal :=
  if !truthy containerState then
    .error ("The model " ++ name ++ " is not initialized.")
  else .ok containerState

/-- One run of the subscriber closure registered by `useModel`
(src/index.tsx lines 129-140), acting on the hook's local state and its
`depsRef.current` record: with no deps function the latest container
state is pulled unconditionally; with a deps function the new dependency
vector is computed, the state is pulled only when that vector is
non-empty and not `isEquals` to the recorded one, and the record is then
replaced by the new vector. Returns (new local state, new record). -/
def subscriberStep (deps : Option (JSVal → List JSVal)) (containerState localState : JSVal)
    (depsRec : List JSVal) : JSVal × List JSVal :=
  match deps with
  | none => (containerState, depsRec)
  | some f =>
      let newDeps := f containerState
      let st := if newDeps.length != 0 && !isEquals depsRec newDeps then containerState
        else localState
      (st, newDeps)

/-- A React context created for a model: its argument is the context's
default value, a fallback Container. -/
structure Channel where
  defaultContainer : Container
deriving DecidableEq, Repr

/-- The `getModelContext` function (src/index.tsx lines 104-116), with the
model's mutable `context` slot and a fresh-object counter passed
explicitly: if the slot is filled, return its channel unchanged; otherwise
create a context whose default is the supplied container, or a freshly
allocated empty Container when none is supplied, store it in the slot and
return it. Returns (returned channel, new slot, new counter). -/
def getModelContext (slot : Option Channel) (initial : Option Container) (cnt : Nat) :
    Channel × Option Channel × Nat :=
  match slot with
  | some ch => (ch, some ch, cnt)
  | none =>
      match initial with
      | some c0 => (⟨c0⟩, some ⟨c0⟩, cnt)
      | none => (⟨newContainer cnt⟩, some ⟨newContainer cnt⟩, cnt + 1)

/-- A sequence of `getModelContext` calls for one model, threading the
slot and the fresh-object counter; returns the list of channels handed
back, call by call. -/
def runCalls : List (Option Container) → Option Channel → Nat → List Channel × Option Channel × Nat
  | [], slot, cnt => ([], slot, cnt)
  | init :: rest, slot, cnt =>
      let r1 := getModelContext slot init cnt
      let r2 := runCalls rest r1.2.1 r1.2.2
      (r1.1 :: r2.1, r2.2)

/-- A subscription-set operation performed on a Container by consumer
hooks: `sub` on effect mount, `unsub` on cleanup. -/
inductive COp where
  | csub : Nat → COp
  | cunsub : Nat → COp
deriving DecidableEq, Repr

/-- Apply one subscription operation to a Container. -/
def stepOp (c : Container) : COp → Container
  | .csub n => c.addSub n
  | .cunsub n => c.removeSub n

/-- The Container obtained by running a sequence of subscribe/unsubscribe
calls on a fresh Container. -/
def applyOps (ops : List COp) : Container :=
  ops.foldl stepOp (newContainer 0)

/-- Whether listener `n` is currently registered after the operation
sequence `ops`: subscribed at some point and not unsubscribed since. -/
def registered (ops : List COp) (n : Nat) : Bool :=
  ops.foldl
    (fun b op =>
      match op with
      | .csub m => if m = n then true else b
      | .cunsub m => if m = n then false else b)
    false

/-- The position in `ops` at which listener `n`'s current registration was
established, carrying the index `i` of the next operation and the
registration position `cur` accumulated so far: a `sub` of `n` registers
it at the current index only when it is not already registered (`Set.add`
keeps an existing element's position), and an `unsub` of `n` clears it. -/
def regIdxAux (n : Nat) : List COp → Nat → Option Nat → Option Nat
  | [], _, cur => cur
  | .csub m :: rest, i, cur =>
      regIdxAux n rest (i + 1) (if m = n then (if cur.isNone then some i else cur) else cur)
  | .cunsub m :: rest, i, cur =>
      regIdxAux n rest (i + 1) (if m = n then none else cur)

/-- The position in `ops` of listener `n`'s current registration, or
`none` when `n` is not currently registered. -/
def regIdx (ops : List COp) (n : Nat) : Option Nat :=
  regIdxAux n ops 0 none

/-- Listener `a`'s current registration happened strictly before
listener `b`'s. -/
def regBefore (ops : List COp) (a b : Nat) : Prop :=
  ∃ i j, regIdx ops a = some i ∧ regIdx ops b = some j ∧ i < j

/-- The props of one `Provider` element, as taken by `Providers`. -/
structure PConfig where
  modelId : Nat
  args : Option JSArray
  memo : Bool
deriving DecidableEq, Repr

/-- The element tree produced by nesting Provider elements around an
opaque children node. -/
inductive ElemTree where
  | childrenNode : Nat → ElemTree
  | providerNode : PConfig → ElemTree → ElemTree
deriving DecidableEq, Repr

/-- Manual nesting of single Providers, per the spec's words: the first
list entry outermost, the last entry innermost. Used only to compare
against the source-derived `ProvidersRun`. -/
def nestProviders (models : List PConfig) (children : ElemTree) : ElemTree :=
  models.foldr (fun cfg t => .providerNode cfg t) children

/-- The `Providers` component (src/index.tsx lines 161-168):
`props.models.reverse().reduce((children, p) => <Provider {...p}>…, props.children)`.
`Array.prototype.reverse` reverses the caller's array in place and
returns it, so the result is the reduced element tree paired with the
models array's contents after the call. -/
def ProvidersRun (models : List PConfig) (children : ElemTree) : ElemTree × List PConfig :=
  let rev := models.reverse
  (rev.foldl (fun t cfg => .providerNode cfg t) children, rev)

/-- A JavaScript object as an insertion-ordered association list with
string keys; JS objects never hold duplicate keys. -/
def Obj : Type := List (String × JSVal)

/-- Property assignment `o[k] = v`: an existing key keeps its position
and gets the new value, a new key is appended at the end. -/
def objSet : Obj → String → JSVal → Obj
  | [], k, v => [(k, v)]
  | (k0, v0) :: rest, k, v =>
      if k0 = k then (k0, v) :: rest else (k0, v0) :: objSet rest k v

/-- Property read `o[k]`. -/
def objGet : Obj → String → Option JSVal
  | [], _ => none
  | (k0, v0) :: rest, k => if k0 = k then some v0 else objGet rest k

/-- The spread `{ ...a, ...b }`: copy `a`, then assign each property of
`b` in order, so `b`'s entries override `a`'s on key collision. -/
def objSpread (a b : Obj) : Obj :=
  b.foldl (fun acc kv => objSet acc kv.1 kv.2) a

/-- The `modelList` object built by `withModel` (src/index.tsx lines
176-182): one property per key of the models map, in key order, holding
the `useModel` result for that key (abstracted as `modelVal`). -/
def buildModelList (keys : List String) (modelVal : String → JSVal) : Obj :=
  keys.foldl (fun acc k => objSet acc k (modelVal k)) []

/-- The `_props` object `withModel` delivers to the wrapped component
(src/index.tsx lines 183-187): `{ ...modelList, ...props }`. -/
def withModelProps (keys : List String) (modelVal : String → JSVal) (props : Obj) : Obj :=
  objSpread (buildModelList keys modelVal) props

theorem runCalls_some (inits : List (Option Container)) (ch : Channel) (cnt : Nat) :
    runCalls inits (some ch) cnt = (List.replicate inits.length ch, some ch, cnt) := by
  induction inits with
  | nil => rfl
  | cons i rest ih => simp [runCalls, getModelContext, ih, List.replicate]

theorem providersRun_fst (models : List PConfig) (children : ElemTree) :
    (ProvidersRun models children).1 = nestProviders models children := by
  simp only [ProvidersRun, nestProviders]
  rw [List.foldl_reverse]

/-- C3: on every notification, the `useModel` subscriber pulls the latest
Container value into local state unconditionally when no deps function
was supplied; with a deps function it pulls only when the new dependency
vector is non-empty and differs (by `isEquals`) from the recorded one,
and the recorded vector is replaced by the new one in either case. -/
theorem useModel_subscriber_spec :
    (∀ cs ls dr, subscriberStep none cs ls dr = (cs, dr)) ∧
    (∀ (f : JSVal → List JSVal) cs ls dr,
      subscriberStep (some f) cs ls dr =
        (if (f cs).length ≠ 0 ∧ isEquals dr (f cs) = false then cs else ls, f cs)) := by
  refine ⟨fun cs ls dr => rfl, fun f cs ls dr => ?_⟩
  simp only [subscriberStep]
  congr 1
  by_cases h1 : (f cs).length = 0
  · simp [h1]
  · by_cases h2 : isEquals dr (f cs) = false
    · simp [h1, h2]
    · have h2' : isEquals dr (f cs) = true := by
        cases hb : isEquals dr (f cs)
        · exact absurd hb h2
        · rfl
      simp [h1, h2']

/-- C4: every call to the Provider's `onChange` writes the reported value
into the Container, mirrors it into the external `modelRef` cell when one
was supplied, flips the ready flag, and calls `notify` on the full
current subscriber list — unconditionally, for any prior Container state,
including one already holding the same value (no deduplication). -/
theorem provider_onChange_spec (isReady : Bool) (c : Container) (modelRef : Option JSVal)
    (value : JSVal) :
    (onChange isReady c modelRef value).container.state = value ∧
    (onChange isReady c modelRef value).container.subscribers = c.subscribers ∧
    (onChange isReady c modelRef value).modelRef = modelRef.map (fun _ => value) ∧
    (onChange isReady c modelRef value).notified = c.subscribers ∧
    (onChange isReady c modelRef value).isReady = true := by
  refine ⟨rfl, rfl, ?_, rfl, ?_⟩
  · cases modelRef <;> rfl
  · cases isReady <;> rfl

/-- C6 counterexample: with listeners 1 and 2 both registered and
listener 1 throwing, `notify` raises listener 1's exception and never
invokes listener 2, refuting the claim that one listener's exception does
not prevent the remaining listeners from running. -/
theorem notify_throwing_listener_cex :
    (1 ∈ (applyOps [COp.csub 1, COp.csub 2]).subscribers ∧
      2 ∈ (applyOps [COp.csub 1, COp.csub 2]).subscribers) ∧
    (Container.notifyExc (fun n => n == 1)
      (applyOps [COp.csub 1, COp.csub 2]).subscribers).2 = some 1 ∧
    2 ∉ (Container.notifyExc (fun n => n == 1)
      (applyOps [COp.csub 1, COp.csub 2]).subscribers).1 := by
  decide

/-- C6 amended: `notify` iterates `forEach`-style, so a throwing listener
aborts the call: exactly the listeners up to and including the first
thrower are invoked, the listeners after it are not, and the first
thrower's exception propagates. -/
theorem notifyExc_stops_at_first_thrower (throws : Nat → Bool) (subs : List Nat) :
    Container.notifyExc throws subs =
      (subs.takeWhile (fun s => !throws s) ++ (subs.dropWhile (fun s => !throws s)).take 1,
        (subs.dropWhile (fun s => !throws s)).head?) := by
  induction subs with
  | nil => rfl
  | cons s rest ih =>
    by_cases h : throws s = true
    · simp [Container.notifyExc, h, List.takeWhile_cons, List.dropWhile_cons]
    · have h' : throws s = false := by
        cases hb : throws s
        · rfl
        · exact absurd hb h
      simp [Container.notifyExc, h', List.takeWhile_cons, List.dropWhile_cons, ih]

/-- C1 counterexample: a Provider completes a report of the value `0`, so
the Container's current value is present (not `undefined`), yet `useModel`
still raises the not-initialized error because its guard tests JS
falsiness, refuting "whenever an ancestor Provider has completed at least
one report, useModel returns the Container's current value without
raising". -/
theorem useModel_truthiness_cex :
    (onChange false (newContainer 0) none (JSVal.num 0)).container.state = JSVal.num 0 ∧
    ¬ (onChange false (newContainer 0) none (JSVal.num 0)).container.state = JSVal.undef ∧
    useModelRead "counter" (onChange false (newContainer 0) none (JSVal.num 0)).container.state =
      Except.error ("The model " ++ "counter" ++ " is not initialized.") := by
  exact ⟨rfl, by decide, rfl⟩

/-- C1 amended: after a Provider report of value `v`, `useModel` raises
the not-initialized error exactly when `v` is JS-falsy (`undefined`,
`null`, `false`, `0` or the empty string — which includes the
never-reported `undefined` state), and returns `v` exactly when `v` is
truthy. -/
theorem useModel_raises_iff_falsy (name : String) (ready : Bool) (c : Container)
    (ref : Option JSVal) (v : JSVal) :
    (useModelRead name (onChange ready c ref v).container.state =
        Except.error ("The model " ++ name ++ " is not initialized.") ↔ truthy v = false) ∧
    (useModelRead name (onChange ready c ref v).container.state = Except.ok v ↔
        truthy v = true) := by
  have hst : (onChange ready c ref v).container.state = v := rfl
  rw [hst]
  cases hv : truthy v with
  | false => simp [useModelRead, hv]
  | true => simp [useModelRead, hv]

/-- C7: the first `getModelContext` call for a model creates a channel
whose default value is the supplied container — or a fresh empty
Container when none is supplied — and binds it into the model's slot;
every subsequent call returns that same bound channel unconditionally,
whatever container argument it is given (first-writer-wins). -/
theorem getModelContext_first_writer_wins (init : Option Container)
    (rest : List (Option Container)) (cnt : Nat) :
    (getModelContext none init cnt).1.defaultContainer = init.getD (newContainer cnt) ∧
    (getModelContext none init cnt).2.1 = some (getModelContext none init cnt).1 ∧
    (newContainer cnt).state = JSVal.undef ∧
    (newContainer cnt).subscribers = [] ∧
    (runCalls (init :: rest) none cnt).1 =
      (getModelContext none init cnt).1 ::
        List.replicate rest.length (getModelContext none init cnt).1 := by
  refine ⟨?_, ?_, rfl, rfl, ?_⟩
  · cases init <;> rfl
  · cases init <;> rfl
  · cases init <;> simp [runCalls, getModelContext, runCalls_some]

/-- C8: `Providers` produces exactly the nesting obtained by manually
wrapping the children in single Providers with the first list entry
outermost and the last entry innermost. -/
theorem providers_nesting_order (models : List PConfig) (children : ElemTree) :
    (ProvidersRun models children).1 = nestProviders models children :=
  providersRun_fst models children

/-- C9: `Providers` reverses the caller's models array in place
(`Array.prototype.reverse`), so after one run the array object holds the
reversed configuration list, and running `Providers` again on that same
array yields the opposite nesting order. -/
theorem providers_reverses_input (models : List PConfig) (children children2 : ElemTree) :
    (ProvidersRun models children).2 = models.reverse ∧
    (ProvidersRun (ProvidersRun models children).2 children2).1 =
      nestProviders models.reverse children2 :=
  ⟨rfl, providersRun_fst models.reverse children2⟩

/-- C2: the Processor skips re-invoking the model exactly when the caller
set `memo` and the previous and current argument vectors are either
reference-identical (`===` on the args props) or shallow-equal (same
length and pairwise `===` at every position); consequently, whenever the
vectors differ in length or in any element, the model is invoked again.
The hypothesis records that `===`-identical args props carry the same
element vector, which is what reference identity means. -/
theorem processor_memo_skip_iff (memo : Bool) (prev next : Option JSArray)
    (h : argsRefEq prev next = true → orEmpty prev = orEmpty next) :
    (processorSkip memo prev next = true ↔
      memo = true ∧ (argsRefEq prev next = true ∨ shallowEqSpec (orEmpty prev) (orEmpty next)))
    ∧ (¬ shallowEqSpec (orEmpty prev) (orEmpty next) →
      processorSkip memo prev next = false) := by
  have hrefl : ∀ v : List JSVal, shallowEqSpec v v := fun v => ⟨rfl, fun i _ => jsEq_refl _⟩
  cases memo with
  | false => simp [processorSkip]
  | true =>
    by_cases hr : argsRefEq prev next = true
    · refine ⟨by simp [processorSkip, hr], fun hne => absurd (h hr ▸ hrefl (orEmpty prev)) hne⟩
    · have hr' : argsRefEq prev next = false := by
        cases hb : argsRefEq prev next
        · rfl
        · exact absurd hb hr
      refine ⟨by simp [processorSkip, hr', isEquals_iff_shallowEqSpec], fun hne => ?_⟩
      have : isEquals (orEmpty prev) (orEmpty next) = false := by
        cases hb : isEquals (orEmpty prev) (orEmpty next)
        · rfl
        · exact absurd ((isEquals_iff_shallowEqSpec _ _).mp hb) hne
      simp [processorSkip, hr', this]

/-- Witness for C2 at `memo := true` and two distinct array objects
holding different single-element vectors. -/
theorem processor_memo_skip_iff_witness :
    (argsRefEq (some ⟨0, [JSVal.num 1]⟩) (some ⟨1, [JSVal.num 2]⟩) = true →
      orEmpty (some ⟨0, [JSVal.num 1]⟩) = orEmpty (some ⟨1, [JSVal.num 2]⟩)) ∧
    ((processorSkip true (some ⟨0, [JSVal.num 1]⟩) (some ⟨1, [JSVal.num 2]⟩) = true ↔
      true = true ∧ (argsRefEq (some ⟨0, [JSVal.num 1]⟩) (some ⟨1, [JSVal.num 2]⟩) = true ∨
        shallowEqSpec (orEmpty (some ⟨0, [JSVal.num 1]⟩)) (orEmpty (some ⟨1, [JSVal.num 2]⟩))))
    ∧ (¬ shallowEqSpec (orEmpty (some ⟨0, [JSVal.num 1]⟩)) (orEmpty (some ⟨1, [JSVal.num 2]⟩)) →
      processorSkip true (some ⟨0, [JSVal.num 1]⟩) (some ⟨1, [JSVal.num 2]⟩) = false)) :=
  ⟨by decide, processor_memo_skip_iff true (some ⟨0, [JSVal.num 1]⟩) (some ⟨1, [JSVal.num 2]⟩)
    (by decide)⟩

theorem objGet_objSet (o : Obj) (k k2 : String) (v : JSVal) :
    objGet (objSet o k v) k2 = if k = k2 then some v else objGet o k2 := by
  induction o with
  | nil =>
    by_cases h : k = k2 <;> simp [objSet, objGet, h]
  | cons kv rest ih =>
    obtain ⟨k0, v0⟩ := kv
    by_cases h0 : k0 = k
    · subst h0
      by_cases h2 : k0 = k2 <;> simp [objSet, objGet, h2]
    · by_cases h2 : k0 = k2
      · subst h2
        have hk : ¬ k = k0 := fun h => h0 h.symm
        simp [objSet, objGet, h0, hk]
      · simp [objSet, objGet, h0, h2, ih]

theorem objGet_eq_none_of_not_mem (o : Obj) (k : String) (h : k ∉ o.map Prod.fst) :
    objGet o k = none := by
  induction o with
  | nil => rfl
  | cons kv rest ih =>
    obtain ⟨k0, v0⟩ := kv
    simp only [List.map_cons, List.mem_cons] at h
    push_neg at h
    have hne : ¬ k0 = k := fun he => h.1 he.symm
    simp [objGet, hne, ih h.2]

theorem objGet_objSpread (a b : Obj) (k : String) (hb : (b.map Prod.fst).Nodup) :
    objGet (objSpread a b) k =
      match objGet b k with
      | some v => some v
      | none => objGet a k := by
  induction b generalizing a with
  | nil => simp [objSpread, objGet]
  | cons kv rest ih =>
    obtain ⟨k0, v0⟩ := kv
    simp only [List.map_cons, List.nodup_cons] at hb
    obtain ⟨hk0, hrest⟩ := hb
    have hstep : objSpread a ((k0, v0) :: rest) = objSpread (objSet a k0 v0) rest := rfl
    rw [hstep, ih _ hrest]
    by_cases h2 : k0 = k
    · subst h2
      have hnone : objGet rest k0 = none := objGet_eq_none_of_not_mem rest k0 hk0
      simp [objGet, hnone, objGet_objSet]
    · simp [objGet, h2, objGet_objSet]

theorem objGet_foldl_set (keys : List String) (mv : String → JSVal) (acc : Obj) (k : String) :
    objGet (keys.foldl (fun a k2 => objSet a k2 (mv k2)) acc) k =
      if k ∈ keys then some (mv k) else objGet acc k := by
  induction keys generalizing acc with
  | nil => simp
  | cons k0 rest ih =>
    rw [List.foldl_cons, ih]
    by_cases hm : k ∈ rest
    · simp [hm]
    · by_cases h0 : k = k0
      · subst h0
        simp [hm, objGet_objSet]
      · have hk : ¬ k0 = k := fun h => h0 h.symm
        simp [hm, h0, objGet_objSet, hk]

/-- C10: the props `withModel` delivers to the wrapped component contain
one injected entry per key of the models map (holding that model's
`useModel` value), and a caller-supplied prop with the same name
overrides the injected value, while all other caller props pass through
unchanged. -/
theorem withModel_props_override (keys : List String) (mv : String → JSVal) (props : Obj)
    (k : String) (hp : (props.map Prod.fst).Nodup) :
    objGet (withModelProps keys mv props) k =
      match objGet props k with
      | some v => some v
      | none => if k ∈ keys then some (mv k) else none := by
  unfold withModelProps buildModelList
  rw [objGet_objSpread _ _ _ hp, objGet_foldl_set]
  cases objGet props k <;> simp [objGet]

/-- Witness for C10: models map with keys "a" and "b", caller props
overriding "b" with the number 7; key "b" resolves to the caller's value,
key "a" to the injected model value. -/
theorem withModel_props_override_witness :
    ((([("b", JSVal.num 7)] : Obj).map Prod.fst).Nodup ∧
      objGet (withModelProps ["a", "b"] (fun s => JSVal.str s) [("b", JSVal.num 7)]) "b" =
        match objGet ([("b", JSVal.num 7)] : Obj) "b" with
        | some v => some v
        | none => if "b" ∈ ["a", "b"] then some (JSVal.str "b") else none) :=
  ⟨by decide, withModel_props_override ["a", "b"] (fun s => JSVal.str s)
    [("b", JSVal.num 7)] "b" (by decide)⟩

theorem registeredAux_eq_isSome (n : Nat) (ops : List COp) :
    ∀ (b : Bool) (cur : Option Nat) (i0 : Nat), b = cur.isSome →
    ops.foldl
      (fun b op =>
        match op with
        | .csub m => if m = n then true else b
        | .cunsub m => if m = n then false else b) b
      = (regIdxAux n ops i0 cur).isSome := by
  induction ops with
  | nil => intro b cur i0 h; exact h
  | cons op rest ih =>
    intro b cur i0 h
    cases op with
    | csub m =>
      rw [List.foldl_cons]
      show rest.foldl _ (if m = n then true else b)
          = (regIdxAux n rest (i0 + 1)
              (if m = n then (if cur.isNone then some i0 else cur) else cur)).isSome
      apply ih
      by_cases hm : m = n
      · cases cur <;> simp [hm]
      · simp [hm, h]
    | cunsub m =>
      rw [List.foldl_cons]
      show rest.foldl _ (if m = n then false else b)
          = (regIdxAux n rest (i0 + 1) (if m = n then none else cur)).isSome
      apply ih
      by_cases hm : m = n
      · simp [hm]
      · simp [hm, h]

theorem subsInvariant (ops : List COp) (c : Container) (i0 : Nat) (r : Nat → Option Nat)
    (hmem : ∀ n, n ∈ c.subscribers ↔ (r n).isSome = true)
    (hnd : c.subscribers.Nodup)
    (hpw : c.subscribers.Pairwise fun a b => ∃ i j, r a = some i ∧ r b = some j ∧ i < j)
    (hbd : ∀ n i, r n = some i → i < i0) :
    (∀ n, n ∈ (ops.foldl stepOp c).subscribers ↔ (regIdxAux n ops i0 (r n)).isSome = true) ∧
    (ops.foldl stepOp c).subscribers.Nodup ∧
    (ops.foldl stepOp c).subscribers.Pairwise fun a b =>
      ∃ i j, regIdxAux a ops i0 (r a) = some i ∧ regIdxAux b ops i0 (r b) = some j ∧ i < j := by
  induction ops generalizing c i0 r with
  | nil => exact ⟨hmem, hnd, hpw⟩
  | cons op rest ih =>
    cases op with
    | csub m =>
      rw [List.foldl_cons]
      by_cases hm : m ∈ c.subscribers
      · have hc : stepOp c (COp.csub m) = c := by
          simp [stepOp, Container.addSub, hm]
        have hr1 : ∀ k, (if m = k then (if (r k).isNone then some i0 else r k) else r k) = r k := by
          intro k
          by_cases h : m = k
          · subst h
            have hs : (r m).isSome = true := (hmem m).mp hm
            cases hrm : r m with
            | none => rw [hrm] at hs; simp at hs
            | some v => simp [hrm]
          · simp [h]
        rw [hc]
        simp only [regIdxAux]
        simp only [hr1]
        exact ih c (i0 + 1) r hmem hnd hpw (fun k i hi => Nat.lt_succ_of_lt (hbd k i hi))
      · have hrm : r m = none := by
          have hs : ¬ (r m).isSome = true := fun hs => hm ((hmem m).mpr hs)
          cases hrm : r m with
          | none => rfl
          | some v => rw [hrm] at hs; simp at hs
        have hc : stepOp c (COp.csub m) = { c with subscribers := c.subscribers ++ [m] } := by
          simp [stepOp, Container.addSub, hm]
        rw [hc]
        simp only [regIdxAux]
        have hmem1 : ∀ k, k ∈ c.subscribers ++ [m] ↔
            (if m = k then (if (r k).isNone then some i0 else r k) else r k).isSome = true := by
          intro k
          by_cases h : m = k
          · subst h
            simp [hrm, List.mem_append]
          · rw [List.mem_append, List.mem_singleton, if_neg h]
            constructor
            · rintro (hin | rfl)
              · exact (hmem k).mp hin
              · exact absurd rfl h
            · intro hs
              exact Or.inl ((hmem k).mpr hs)
        have hnd1 : (c.subscribers ++ [m]).Nodup := by
          rw [List.nodup_append]
          exact ⟨hnd, List.nodup_singleton m, by simp [List.disjoint_singleton, hm]⟩
        have hpw1 : (c.subscribers ++ [m]).Pairwise (fun a b => ∃ i j,
            (if m = a then (if (r a).isNone then some i0 else r a) else r a) = some i ∧
            (if m = b then (if (r b).isNone then some i0 else r b) else r b) = some j ∧
            i < j) := by
          rw [List.pairwise_append]
          refine ⟨?_, List.pairwise_singleton _ _, ?_⟩
          · refine List.Pairwise.imp_of_mem ?_ hpw
            rintro a b ha hb ⟨i, j, h1, h2, h3⟩
            have hma : ¬ m = a := fun he => hm (he ▸ ha)
            have hmb : ¬ m = b := fun he => hm (he ▸ hb)
            exact ⟨i, j, by rw [if_neg hma]; exact h1, by rw [if_neg hmb]; exact h2, h3⟩
          · intro a ha b hb
            rw [List.mem_singleton] at hb
            subst hb
            have hma : ¬ b = a := fun he => hm (he ▸ ha)
            have hsa : (r a).isSome = true := (hmem a).mp ha
            cases hra : r a with
            | none => rw [hra] at hsa; simp at hsa
            | some i =>
              exact ⟨i, i0, by rw [if_neg hma], by simp [hrm], hbd a i hra⟩
        have hbd1 : ∀ k i,
            (if m = k then (if (r k).isNone then some i0 else r k) else r k) = some i →
            i < i0 + 1 := by
          intro k i hi
          by_cases h : m = k
          · subst h
            rw [if_pos rfl, hrm] at hi
            simp at hi
            omega
          · rw [if_neg h] at hi
            exact Nat.lt_succ_of_lt (hbd k i hi)
        exact ih { c with subscribers := c.subscribers ++ [m] } (i0 + 1)
          (fun k => if m = k then (if (r k).isNone then some i0 else r k) else r k)
          hmem1 hnd1 hpw1 hbd1
    | cunsub m =>
      rw [List.foldl_cons]
      have hc : stepOp c (COp.cunsub m) = { c with subscribers := c.subscribers.erase m } := rfl
      rw [hc]
      simp only [regIdxAux]
      have hmem1 : ∀ k, k ∈ c.subscribers.erase m ↔
          (if m = k then none else r k).isSome = true := by
        intro k
        rw [hnd.mem_erase_iff]
        by_cases h : m = k
        · subst h
          simp
        · have hne : k ≠ m := fun he => h he.symm
          simp [h, hne, hmem k]
      have hnd1 : (c.subscribers.erase m).Nodup := hnd.erase m
      have hpw1 : (c.subscribers.erase m).Pairwise (fun a b => ∃ i j,
          (if m = a then none else r a) = some i ∧
          (if m = b then none else r b) = some j ∧ i < j) := by
        refine List.Pairwise.imp_of_mem ?_
          (List.Pairwise.sublist (List.erase_sublist m c.subscribers) hpw)
        rintro a b ha hb ⟨i, j, h1, h2, h3⟩
        have hma : ¬ m = a := fun he => (hnd.mem_erase_iff.mp ha).1 he.symm
        have hmb : ¬ m = b := fun he => (hnd.mem_erase_iff.mp hb).1 he.symm
        exact ⟨i, j, by rw [if_neg hma]; exact h1, by rw [if_neg hmb]; exact h2, h3⟩
      have hbd1 : ∀ k i, (if m = k then none else r k) = some i → i < i0 + 1 := by
        intro k i hi
        by_cases h : m = k
        · rw [if_pos h] at hi; cases hi
        · rw [if_neg h] at hi
          exact Nat.lt_succ_of_lt (hbd k i hi)
      exact ih { c with subscribers := c.subscribers.erase m } (i0 + 1)
        (fun k => if m = k then none else r k) hmem1 hnd1 hpw1 hbd1

/-- C5: after any sequence of subscribe/unsubscribe calls on a Container,
a single `notify` call invokes exactly the currently registered
listeners, each exactly once, in registration order — the order in which
each listener's current registration was established — and (by the
model of `notify`) passes no argument to any of them. -/
theorem container_notify_spec (ops : List COp) :
    (applyOps ops).notify = (applyOps ops).subscribers ∧
    (applyOps ops).subscribers.Nodup ∧
    (∀ n, n ∈ (applyOps ops).subscribers ↔ registered ops n = true) ∧
    (applyOps ops).subscribers.Pairwise (regBefore ops) := by
  have key := subsInvariant ops (newContainer 0) 0 (fun _ => none)
    (by intro n; simp [newContainer]) (by simp [newContainer]) (by simp [newContainer])
    (by intro n i h; cases h)
  obtain ⟨hmem, hnd, hpw⟩ := key
  refine ⟨rfl, hnd, fun n => ?_, ?_⟩
  · have hre : registered ops n = (regIdxAux n ops 0 none).isSome :=
      registeredAux_eq_isSome n ops false none 0 rfl
    rw [hre]
    exact hmem n
  · exact hpw

end ReactState
